import Mathlib

/-!
Verification of `scripts/find_large_rs.py` (the LargeFileReporter utility).

The script walks the directory tree rooted at the parent of its own location,
collects the paths of all files whose name ends in `.rs` (sorted, as Python
sorts `Path` objects, by the sequence of path components), filters out paths
matching four exclusion rules, counts the lines of each surviving readable
file with `len(text.splitlines())`, keeps files with at least `max_size`
lines, sorts descending by line count with Python's stable sort, and prints a
report.

Shallow embedding used here:
* a candidate file is an `FSEntry`: path components relative to the anchor
  root (`dirs` then `fname`) plus `content : Option String`, where `none`
  models a file whose `read_text` raises (permission error, decode error,
  vanished file, or a directory that happened to match the glob);
* the anchor root is an arbitrary component list `root`, so checks against
  `path.parts` (which in Python include the root's own components) are
  faithful;
* Python's stable sorts (`sorted`, `list.sort`) are modelled by a stable
  insertion sort `sSort`;
* `Path.__lt__` compares the tuple of path components, componentwise by
  string order; this is `strLexLe` on `List String`;
* `str.splitlines` counting is modelled by `slCount`, a scanner over the
  characters that treats `\n`, `\r`, `\r\n`, `\x0b`, `\x0c`, `\x1c`, `\x1d`,
  `\x1e`, `\x85`, `\u2028`, `\u2029` as line boundaries, exactly as Python
  does (the universal-newline translation performed by `read_text` maps
  `\r\n` and `\r` to `\n`, which does not change this count);
* the printed report is modelled as the `List String` of printed lines.
-/

/-- A file discovered under the anchor root: its directory components
relative to the root, its base name, and its content (`none` when reading
the file raises, modelling line 25-26 `except Exception: pass` of
`src/scripts/find_large_rs.py`). -/
structure FSEntry where
  dirs : List String
  fname : String
  content : Option String
deriving DecidableEq

/-- Boolean list-prefix test (componentwise `==`). -/
def isPrefB : List Char → List Char → Bool
  | [], _ => true
  | _ :: _, [] => false
  | a :: as, b :: bs => a == b && isPrefB as bs

/-- Boolean substring test: Python's `pat in s`. -/
def isSubB (p : List Char) : List Char → Bool
  | [] => isPrefB p []
  | c :: t => isPrefB p (c :: t) || isSubB p t

/-- Boolean suffix test: Python's `s.endswith(pat)`. -/
def isSufB (p s : List Char) : Bool := isPrefB p.reverse s.reverse

/-- Strict lexicographic comparison of character lists by code point:
Python's `<` on strings. -/
def charListLt : List Char → List Char → Bool
  | [], [] => false
  | [], _ :: _ => true
  | _ :: _, [] => false
  | a :: as, b :: bs => if a < b then true else if b < a then false else charListLt as bs

/-- Python's `<` on strings (code-point lexicographic). -/
def strLt (a b : String) : Bool := charListLt a.toList b.toList

/-- Lexicographic order on component lists, componentwise by string order:
this is exactly how Python compares `Path` objects (`PurePath.__lt__`
compares the tuples of parts). -/
def strLexLe : List String → List String → Bool
  | [], _ => true
  | _ :: _, [] => false
  | a :: as, b :: bs => if strLt a b then true else if strLt b a then false else strLexLe as bs

/-- Insert `x` into `l` after every element strictly before it under `le`:
the insertion step of a stable sort. -/
def sInsert (le : α → α → Bool) (x : α) : List α → List α
  | [] => [x]
  | y :: ys => if le y x && !le x y then y :: sInsert le x ys else x :: y :: ys

/-- Stable insertion sort, modelling Python's stable `sorted` / `list.sort`:
for a total preorder `le`, elements that compare equal keep their original
relative order. -/
def sSort (le : α → α → Bool) : List α → List α
  | [] => []
  | x :: xs => sInsert le x (sSort le xs)

/-- Scanner state for the `splitlines` line counter. -/
inductive SLMode where
  | lineStart : SLMode
  | inLine : SLMode
  | afterCR : SLMode
deriving DecidableEq

/-- The line-boundary characters of Python's `str.splitlines`. -/
def isLineBreak (c : Char) : Bool :=
  c = '\n' || c = '\r' || c = '\x0b' || c = '\x0c' ||
  c = '\x1c' || c = '\x1d' || c = '\x1e' || c = '\x85' ||
  c = '\u2028' || c = '\u2029'

/-- Number of segments produced by Python's `str.splitlines`, counted by a
single left-to-right scan.  `lineStart`: the next character would begin a new
(not yet counted) segment; `inLine`: inside an already-counted segment;
`afterCR`: the previous character was `\r` (a following `\n` belongs to the
same `\r\n` boundary and is swallowed). -/
def slCount : SLMode → List Char → Nat
  | _, [] => 0
  | SLMode.afterCR, c :: cs =>
    if c = '\n' then slCount SLMode.lineStart cs
    else if c = '\r' then 1 + slCount SLMode.afterCR cs
    else if isLineBreak c then 1 + slCount SLMode.lineStart cs
    else 1 + slCount SLMode.inLine cs
  | SLMode.lineStart, c :: cs =>
    if c = '\r' then 1 + slCount SLMode.afterCR cs
    else if isLineBreak c then 1 + slCount SLMode.lineStart cs
    else 1 + slCount SLMode.inLine cs
  | SLMode.inLine, c :: cs =>
    if c = '\r' then slCount SLMode.afterCR cs
    else if isLineBreak c then slCount SLMode.lineStart cs
    else slCount SLMode.inLine cs

/-- Line count computed by line 22 of `src/scripts/find_large_rs.py`:
`len(path.read_text(encoding="utf-8").splitlines())`. -/
def lineCount (s : String) : Nat := slCount SLMode.lineStart s.toList

/-- Modelled from the spec: number of line segments under "simple
split-on-newline semantics" (spec section 4.1 step 3 and section 9): only
`'\n'` separates lines, an empty content has 0 lines, an unterminated final
line still counts.  The Boolean argument records whether the scan is inside
an already-counted line. -/
def nlCount : Bool → List Char → Nat
  | _, [] => 0
  | inL, c :: cs =>
    if c = '\n' then (if inL then 0 else 1) + nlCount false cs
    else if inL then nlCount true cs else 1 + nlCount true cs

/-- Modelled from the spec: the spec's split-on-newline line count, used to
compare the spec's wording with the code's `splitlines` count. -/
def specLineCount (s : String) : Nat := nlCount false s.toList

/-- The relative path of an entry, as the components of
`path.relative_to(root)` (line 24 of the script). -/
def relPath (e : FSEntry) : List String := e.dirs ++ [e.fname]

/-- `path.parts` of the candidate's full path: the anchor root's own
components followed by the relative components. -/
def fullParts (root : List String) (e : FSEntry) : List String :=
  root ++ relPath e

/-- The glob filter of line 9, `root.rglob("*.rs")`: the base name ends with
`.rs`. -/
def rsMatch (e : FSEntry) : Bool := isSufB ".rs".toList e.fname.toList

/-- Comparison used by line 9's `sorted(...)` on `Path` values: componentwise
lexicographic order of the full paths. -/
def pathLe (root : List String) (e1 e2 : FSEntry) : Bool :=
  strLexLe (fullParts root e1) (fullParts root e2)

/-- Line 9 of the script: enumerate the `*.rs` candidates and sort them as
Python sorts `Path` objects. -/
def enumerated (root : List String) (fs : List FSEntry) : List FSEntry :=
  sSort (pathLe root) (fs.filter rsMatch)

/-- The exclusion test of lines 14-19 of the script:
`"target" in path.parts or "test" in path.parts or "test.rs" in path.name
or path.name == "bindings.rs"`. -/
def excluded (root : List String) (e : FSEntry) : Bool :=
  decide ("target" ∈ fullParts root e) || decide ("test" ∈ fullParts root e) ||
  isSubB "test.rs".toList e.fname.toList || e.fname == "bindings.rs"

/-- Lines 21-24 of the script: attempt to read the file; on success produce
`(path.relative_to(root), loc)`, on failure produce nothing. -/
def readLoc (e : FSEntry) : Option (List String × Nat) :=
  e.content.map fun c => (relPath e, lineCount c)

/-- Comparison used by line 28, `large_files.sort(key=lambda x: -x[1])`:
a stable ascending sort by `-loc`, i.e. `le a b ↔ b.loc ≤ a.loc`. -/
def descLe (a b : List String × Nat) : Bool := decide (b.2 ≤ a.2)

/-- The result list built by lines 11-28 of the script: filter exclusions,
read and count surviving files, keep those with `loc ≥ max_size`, and sort
descending by line count (stable). -/
def results (root : List String) (fs : List FSEntry) (maxSize : Nat) :
    List (List String × Nat) :=
  sSort descLe
    ((((enumerated root fs).filter fun e => !excluded root e).filterMap readLoc).filter
      fun x => decide (maxSize ≤ x.2))

/-- `n` spaces. -/
def padLeft (n : Nat) : String := String.mk (List.replicate n ' ')

/-- Python's `str.rjust` / the `{loc:>5}` format: right-justify in a field of
width `w`, padding with spaces on the left (no-op when already wider). -/
def rjust (w : Nat) (s : String) : String := padLeft (w - s.length) ++ s

/-- The line printed for one entry by line 36 of the script:
`f"  {loc:>5} lines  {path}"`, the relative path rendered with `/`. -/
def entryLine (x : List String × Nat) : String :=
  "  " ++ rjust 5 (toString x.2) ++ " lines  " ++ String.intercalate "/" x.1

/-- The full standard output of `main`, one list element per printed line.
Lines 30-32 print the single empty-case line; lines 34-36 print the header
(whose trailing `\n` in the f-string yields one blank line) followed by one
line per entry. -/
def output (root : List String) (fs : List FSEntry) (maxSize : Nat) :
    List String :=
  if (results root fs maxSize).isEmpty then
    ["No Rust files with " ++ toString maxSize ++ "+ LOC found."]
  else
    ("Rust files with " ++ toString maxSize ++ "+ LOC (" ++
        toString (results root fs maxSize).length ++ " files):") ::
      "" :: (results root fs maxSize).map entryLine

/-- Line 7 of the script: the default of the `max_size` parameter. -/
def defaultMaxSize : Nat := 500

/-- Lines 39-40 of the script: the `__main__` entry point calls `main()` with
no argument, so the run uses the default threshold. -/
def mainNoArgs (root : List String) (fs : List FSEntry) : List String :=
  output root fs defaultMaxSize

/-- The four exclusion rules exactly as claim C3 states them: a `target` or
`test` component anywhere in the full path, a base name containing `test`
immediately before the `.rs` extension, or a base name equal to
`bindings.rs`.  Stated over a result-list relative path `p` whose base name
is its last component. -/
def claimExcluded (root p : List String) : Bool :=
  decide ("target" ∈ root ++ p) || decide ("test" ∈ root ++ p) ||
  isSufB "test.rs".toList (p.getLastD "").toList ||
  (p.getLastD "" == "bindings.rs")

/-- The full path rendered as a single string, used to state claim C2's
"lexicographic order of their full path strings". -/
def fullPathStr (root p : List String) : String :=
  String.intercalate "/" (root ++ p)

/-- The relation a stable sort by `le` establishes on a list that was
previously ordered by a tie-breaking relation `R`: adjacent results are
`le`-ordered, and results that compare equal under `le` are still
`R`-ordered. -/
def SRel (le : α → α → Bool) (R : α → α → Prop) (a b : α) : Prop :=
  le a b = true ∧ (le b a = true → R a b)

/-- Fixture: a single readable three-line file. -/
def wFs1 : List FSEntry := [⟨[], "a.rs", some "x\ny\nz"⟩]

/-- Fixture root for the C2 counterexample. -/
def cRootC2 : List String := ["repo"]

/-- Fixture: two one-line files whose component order and full-path-string
order disagree (`repo/a/b.rs` vs `repo/a.c/d.rs`). -/
def cFsC2 : List FSEntry := [⟨["a.c"], "d.rs", some "x"⟩, ⟨["a"], "b.rs", some "x"⟩]

/-- Fixture: a file inside a `target` directory. -/
def wFs3 : List FSEntry := [⟨["target"], "big.rs", some "x"⟩]

/-- Fixture: a single readable two-line file. -/
def wFs7 : List FSEntry := [⟨[], "a.rs", some "x\ny"⟩]

/-- Fixture: a 500-line file and a 499-line file, to exercise the default
threshold. -/
def demoFs : List FSEntry :=
  [⟨[], "big.rs", some (String.mk (List.replicate 499 '\n' ++ ['x']))⟩,
   ⟨[], "small.rs", some (String.mk (List.replicate 498 '\n' ++ ['x']))⟩]

/-- Fixture: a large readable file used with an anchor root containing a
`test` component. -/
def wFs9 : List FSEntry := [⟨[], "big.rs", some "a\nb"⟩]

/-- Fixture: a three-line file and a one-line file, for the threshold
antitonicity witness. -/
def wFs10 : List FSEntry := [⟨[], "a.rs", some "p\nq\nr"⟩, ⟨[], "b.rs", some "z"⟩]

theorem mem_sInsert (le : α → α → Bool) (x : α) (l : List α) (a : α) :
    a ∈ sInsert le x l ↔ a = x ∨ a ∈ l := by
  induction l with
  | nil => simp [sInsert]
  | cons y ys ih =>
    by_cases h : (le y x && !le x y) = true
    · simp only [sInsert, if_pos h, List.mem_cons, ih]
      tauto
    · simp only [sInsert, if_neg h, List.mem_cons]

theorem mem_sSort (le : α → α → Bool) (l : List α) (a : α) :
    a ∈ sSort le l ↔ a ∈ l := by
  induction l with
  | nil => simp [sSort]
  | cons x xs ih => simp [sSort, mem_sInsert, ih]

theorem le_of_not_before {le : α → α → Bool}
    (htot : ∀ a b, (le a b || le b a) = true) {x y : α}
    (h : ¬(le y x && !le x y) = true) : le x y = true := by
  cases hxy : le x y with
  | true => rfl
  | false =>
    have h2 := htot x y
    rw [hxy, Bool.false_or] at h2
    exact absurd (by rw [h2, hxy]; rfl) h

theorem sInsert_pairwise {le : α → α → Bool} {R : α → α → Prop}
    (htot : ∀ a b, (le a b || le b a) = true)
    (htr : ∀ a b c, le a b = true → le b c = true → le a c = true)
    {x : α} {m : List α} (hm : m.Pairwise (SRel le R)) (hx : ∀ y ∈ m, R x y) :
    (sInsert le x m).Pairwise (SRel le R) := by
  induction m with
  | nil => simp [sInsert, List.pairwise_singleton]
  | cons y ys ih =>
    obtain ⟨hy, hys⟩ := List.pairwise_cons.1 hm
    by_cases h : (le y x && !le x y) = true
    · simp only [sInsert, if_pos h]
      have hcopy := h
      rw [Bool.and_eq_true, Bool.not_eq_true'] at hcopy
      obtain ⟨h1, h3⟩ := hcopy
      refine List.Pairwise.cons ?_ (ih hys fun z hz => hx z (List.mem_cons_of_mem _ hz))
      intro z hz
      rcases (mem_sInsert le x ys z).1 hz with rfl | hz'
      · exact ⟨h1, fun hxy => by rw [h3] at hxy; exact absurd hxy (by simp)⟩
      · exact hy z hz'
    · simp only [sInsert, if_neg h]
      have hxy : le x y = true := le_of_not_before htot h
      refine List.Pairwise.cons ?_ hm
      intro z hz
      rcases List.mem_cons.1 hz with rfl | hz'
      · exact ⟨hxy, fun _ => hx z (List.mem_cons_self _ _)⟩
      · exact ⟨htr x y z hxy (hy z hz').1, fun _ => hx z (List.mem_cons_of_mem _ hz')⟩

theorem sSort_pairwise {le : α → α → Bool} {R : α → α → Prop}
    (htot : ∀ a b, (le a b || le b a) = true)
    (htr : ∀ a b c, le a b = true → le b c = true → le a c = true)
    {l : List α} (hl : l.Pairwise R) :
    (sSort le l).Pairwise (SRel le R) := by
  induction l with
  | nil => simp [sSort]
  | cons x xs ih =>
    obtain ⟨hx, hxs⟩ := List.pairwise_cons.1 hl
    simp only [sSort]
    exact sInsert_pairwise htot htr (ih hxs)
      fun y hy => hx y ((mem_sSort le xs y).1 hy)

theorem pairwise_trivial (l : List α) : l.Pairwise (fun _ _ => True) := by
  induction l with
  | nil => exact List.Pairwise.nil
  | cons a t ih => exact List.Pairwise.cons (fun _ _ => trivial) ih

theorem sSort_sortedLe {le : α → α → Bool}
    (htot : ∀ a b, (le a b || le b a) = true)
    (htr : ∀ a b c, le a b = true → le b c = true → le a c = true)
    (l : List α) : (sSort le l).Pairwise (fun a b => le a b = true) :=
  (sSort_pairwise htot htr (pairwise_trivial l)).imp fun hab => hab.1

theorem sInsert_eq_cons {le : α → α → Bool} {x : α} {m : List α}
    (h : ∀ z ∈ m, (le z x && !le x z) = false) :
    sInsert le x m = x :: m := by
  cases m with
  | nil => rfl
  | cons y ys =>
    have hy := h y (List.mem_cons_self y ys)
    simp [sInsert, hy]

theorem filter_sInsert {le : α → α → Bool}
    (htot : ∀ a b, (le a b || le b a) = true)
    (htr : ∀ a b c, le a b = true → le b c = true → le a c = true)
    (p : α → Bool) {x : α} {m : List α}
    (hm : m.Pairwise fun a b => le a b = true) :
    (sInsert le x m).filter p =
      if p x then sInsert le x (m.filter p) else m.filter p := by
  induction m with
  | nil => by_cases hp : p x = true <;> simp [sInsert, List.filter, hp]
  | cons y ys ih =>
    obtain ⟨hy, hys⟩ := List.pairwise_cons.1 hm
    by_cases h : (le y x && !le x y) = true
    · simp only [sInsert, if_pos h]
      by_cases hpy : p y = true
      · rw [List.filter_cons, if_pos hpy, List.filter_cons, if_pos hpy, ih hys]
        by_cases hpx : p x = true
        · rw [if_pos hpx, if_pos hpx]
          simp only [sInsert, if_pos h]
        · rw [if_neg hpx, if_neg hpx]
      · rw [List.filter_cons, if_neg hpy, List.filter_cons, if_neg hpy, ih hys]
    · simp only [sInsert, if_neg h]
      have hxy : le x y = true := le_of_not_before htot h
      by_cases hpx : p x = true
      · rw [List.filter_cons, if_pos hpx, if_pos hpx]
        have hall : ∀ z ∈ (y :: ys).filter p, (le z x && !le x z) = false := by
          intro z hz
          obtain ⟨hzmem, _⟩ := List.mem_filter.1 hz
          rcases List.mem_cons.1 hzmem with rfl | hz'
          · cases hc : (le z x && !le x z) with
            | false => rfl
            | true => exact absurd hc h
          · have hxz : le x z = true := htr x y z hxy (hy z hz')
            rw [hxz]
            simp
        rw [sInsert_eq_cons hall]
      · rw [List.filter_cons, if_neg hpx, if_neg hpx]

theorem filter_sSort {le : α → α → Bool}
    (htot : ∀ a b, (le a b || le b a) = true)
    (htr : ∀ a b c, le a b = true → le b c = true → le a c = true)
    (p : α → Bool) : ∀ l : List α, (sSort le l).filter p = sSort le (l.filter p) := by
  intro l
  induction l with
  | nil => rfl
  | cons x xs ih =>
    simp only [sSort]
    rw [filter_sInsert htot htr p (sSort_sortedLe htot htr xs), ih, List.filter_cons]
    by_cases hpx : p x = true
    · rw [if_pos hpx, if_pos hpx]; simp only [sSort]
    · rw [if_neg hpx, if_neg hpx]

theorem boolFalse_of_not_true {b : Bool} (h : ¬b = true) : b = false := by
  cases b with
  | false => rfl
  | true => exact absurd rfl h

theorem charListLt_irrefl : ∀ l : List Char, charListLt l l = false := by
  intro l
  induction l with
  | nil => rfl
  | cons c cs ih =>
    simp only [charListLt, if_neg (lt_irrefl c)]
    exact ih

theorem charListLt_cons_iff (x y : Char) (xs ys : List Char) :
    charListLt (x :: xs) (y :: ys) = true ↔
      x < y ∨ (x = y ∧ charListLt xs ys = true) := by
  by_cases h1 : x < y
  · simp only [charListLt, if_pos h1]
    exact ⟨fun _ => Or.inl h1, fun _ => trivial⟩
  · by_cases h2 : y < x
    · simp only [charListLt, if_neg h1, if_pos h2]
      constructor
      · intro hfalse; exact absurd hfalse (by simp)
      · rintro (h | ⟨rfl, _⟩)
        · exact absurd h h1
        · exact absurd h2 (lt_irrefl x)
    · have heq : x = y := le_antisymm (not_lt.1 h2) (not_lt.1 h1)
      simp only [charListLt, if_neg h1, if_neg h2]
      constructor
      · intro h; exact Or.inr ⟨heq, h⟩
      · rintro (h | ⟨_, h⟩)
        · exact absurd h h1
        · exact h

theorem charListLt_trans : ∀ {a b c : List Char},
    charListLt a b = true → charListLt b c = true → charListLt a c = true := by
  intro a
  induction a with
  | nil =>
    intro b c h1 h2
    cases b with
    | nil => simp [charListLt] at h1
    | cons y ys =>
      cases c with
      | nil => simp [charListLt] at h2
      | cons z zs => rfl
  | cons x xs ih =>
    intro b c h1 h2
    cases b with
    | nil => simp [charListLt] at h1
    | cons y ys =>
      cases c with
      | nil => simp [charListLt] at h2
      | cons z zs =>
        rcases (charListLt_cons_iff x y xs ys).1 h1 with hxy | ⟨rfl, hxy⟩
        · rcases (charListLt_cons_iff y z ys zs).1 h2 with hyz | ⟨rfl, hyz⟩
          · exact (charListLt_cons_iff x z xs zs).2 (Or.inl (lt_trans hxy hyz))
          · exact (charListLt_cons_iff x y xs zs).2 (Or.inl hxy)
        · rcases (charListLt_cons_iff x z ys zs).1 h2 with hyz | ⟨rfl, hyz⟩
          · exact (charListLt_cons_iff x z xs zs).2 (Or.inl hyz)
          · exact (charListLt_cons_iff x x xs zs).2 (Or.inr ⟨rfl, ih hxy hyz⟩)

theorem charListLt_eq_of_not : ∀ {a b : List Char},
    charListLt a b = false → charListLt b a = false → a = b := by
  intro a
  induction a with
  | nil =>
    intro b h1 _
    cases b with
    | nil => rfl
    | cons y ys => simp [charListLt] at h1
  | cons x xs ih =>
    intro b h1 h2
    cases b with
    | nil => simp [charListLt] at h2
    | cons y ys =>
      by_cases hxy : x < y
      · simp only [charListLt, if_pos hxy] at h1
        exact absurd h1 (by simp)
      · by_cases hyx : y < x
        · simp only [charListLt, if_pos hyx] at h2
          exact absurd h2 (by simp)
        · have heq : x = y := le_antisymm (not_lt.1 hyx) (not_lt.1 hxy)
          subst heq
          simp only [charListLt, if_neg (lt_irrefl x)] at h1 h2
          rw [ih h1 h2]

theorem strLt_irrefl (a : String) : strLt a a = false := charListLt_irrefl _

theorem strLt_trans {a b c : String} (h1 : strLt a b = true)
    (h2 : strLt b c = true) : strLt a c = true := charListLt_trans h1 h2

theorem strEq_of_not_lt {a b : String} (h1 : strLt a b = false)
    (h2 : strLt b a = false) : a = b := by
  have h := charListLt_eq_of_not h1 h2
  cases a with
  | mk da =>
    cases b with
    | mk db => exact congrArg String.mk h

theorem strLexLe_nil (b : List String) : strLexLe [] b = true := by
  cases b <;> rfl

theorem strLexLe_cons_iff (a b : String) (as bs : List String) :
    strLexLe (a :: as) (b :: bs) = true ↔
      strLt a b = true ∨ (a = b ∧ strLexLe as bs = true) := by
  by_cases h1 : strLt a b = true
  · simp only [strLexLe, if_pos h1]
    exact ⟨fun _ => Or.inl h1, fun _ => trivial⟩
  · by_cases h2 : strLt b a = true
    · simp only [strLexLe, if_neg h1, if_pos h2]
      constructor
      · intro hfalse; exact absurd hfalse (by simp)
      · rintro (h | ⟨rfl, _⟩)
        · exact absurd h h1
        · rw [strLt_irrefl] at h2; exact absurd h2 (by simp)
    · have heq : a = b :=
        strEq_of_not_lt (boolFalse_of_not_true h1) (boolFalse_of_not_true h2)
      simp only [strLexLe, if_neg h1, if_neg h2]
      constructor
      · intro h; exact Or.inr ⟨heq, h⟩
      · rintro (h | ⟨_, h⟩)
        · exact absurd h h1
        · exact h

theorem strLexLe_total : ∀ a b : List String,
    strLexLe a b = true ∨ strLexLe b a = true := by
  intro a
  induction a with
  | nil => intro b; exact Or.inl (strLexLe_nil b)
  | cons x xs ih =>
    intro b
    cases b with
    | nil => exact Or.inr (strLexLe_nil _)
    | cons y ys =>
      by_cases hxy : strLt x y = true
      · exact Or.inl ((strLexLe_cons_iff x y xs ys).2 (Or.inl hxy))
      · by_cases hyx : strLt y x = true
        · exact Or.inr ((strLexLe_cons_iff y x ys xs).2 (Or.inl hyx))
        · have heq : x = y :=
            strEq_of_not_lt (boolFalse_of_not_true hxy) (boolFalse_of_not_true hyx)
          subst heq
          rcases ih ys with h | h
          · exact Or.inl ((strLexLe_cons_iff x x xs ys).2 (Or.inr ⟨rfl, h⟩))
          · exact Or.inr ((strLexLe_cons_iff x x ys xs).2 (Or.inr ⟨rfl, h⟩))

theorem strLexLe_trans : ∀ {a b c : List String},
    strLexLe a b = true → strLexLe b c = true → strLexLe a c = true := by
  intro a
  induction a with
  | nil => intro b c _ _; exact strLexLe_nil c
  | cons x xs ih =>
    intro b c h1 h2
    cases b with
    | nil => simp [strLexLe] at h1
    | cons y ys =>
      cases c with
      | nil => simp [strLexLe] at h2
      | cons z zs =>
        rcases (strLexLe_cons_iff x y xs ys).1 h1 with hxy | ⟨rfl, hxy⟩
        · rcases (strLexLe_cons_iff y z ys zs).1 h2 with hyz | ⟨rfl, hyz⟩
          · exact (strLexLe_cons_iff x z xs zs).2 (Or.inl (strLt_trans hxy hyz))
          · exact (strLexLe_cons_iff x y xs zs).2 (Or.inl hxy)
        · rcases (strLexLe_cons_iff x z ys zs).1 h2 with hyz | ⟨rfl, hyz⟩
          · exact (strLexLe_cons_iff x z xs zs).2 (Or.inl hyz)
          · exact (strLexLe_cons_iff x x xs zs).2 (Or.inr ⟨rfl, ih hxy hyz⟩)

theorem strLexLe_append (p : List String) (a b : List String) :
    strLexLe (p ++ a) (p ++ b) = strLexLe a b := by
  induction p with
  | nil => rfl
  | cons x ps ih =>
    have hxx : ¬strLt x x = true := by rw [strLt_irrefl]; simp
    simp only [List.cons_append, strLexLe, if_neg hxx]
    exact ih

theorem pathLe_total (root : List String) :
    ∀ a b : FSEntry, (pathLe root a b || pathLe root b a) = true := by
  intro a b
  rcases strLexLe_total (fullParts root a) (fullParts root b) with h | h <;>
    simp [pathLe, h]

theorem pathLe_trans (root : List String) :
    ∀ a b c : FSEntry, pathLe root a b = true → pathLe root b c = true →
      pathLe root a c = true := by
  intro a b c h1 h2
  exact strLexLe_trans h1 h2

theorem descLe_total : ∀ a b : List String × Nat,
    (descLe a b || descLe b a) = true := by
  intro a b
  rcases Nat.le_total b.2 a.2 with h | h <;> simp [descLe, h]

theorem descLe_trans : ∀ a b c : List String × Nat,
    descLe a b = true → descLe b c = true → descLe a c = true := by
  intro a b c h1 h2
  simp only [descLe, decide_eq_true_iff] at h1 h2 ⊢
  exact le_trans h2 h1

theorem isPrefB_self : ∀ l : List Char, isPrefB l l = true := by
  intro l
  induction l with
  | nil => rfl
  | cons c cs ih => simp [isPrefB, ih]

theorem exists_of_isPrefB : ∀ {p s : List Char}, isPrefB p s = true →
    ∃ t, s = p ++ t := by
  intro p
  induction p with
  | nil => intro s _; exact ⟨s, rfl⟩
  | cons a as ih =>
    intro s h
    cases s with
    | nil => simp [isPrefB] at h
    | cons b bs =>
      simp only [isPrefB, Bool.and_eq_true, beq_iff_eq] at h
      obtain ⟨rfl, h2⟩ := h
      obtain ⟨t, rfl⟩ := ih h2
      exact ⟨t, rfl⟩

theorem isSubB_of_append (p : List Char) : ∀ t : List Char,
    isSubB p (t ++ p) = true := by
  intro t
  induction t with
  | nil =>
    cases p with
    | nil => rfl
    | cons c cs => simp [isSubB, isPrefB_self]
  | cons c t ih => simp [isSubB, ih]

theorem isSubB_of_isSufB {p s : List Char} (h : isSufB p s = true) :
    isSubB p s = true := by
  obtain ⟨t, ht⟩ := exists_of_isPrefB h
  have hs : s = t.reverse ++ p := by
    have := congrArg List.reverse ht
    rwa [List.reverse_reverse, List.reverse_append, List.reverse_reverse] at this
  rw [hs]
  exact isSubB_of_append p t.reverse

theorem pairwise_filterMap_rel {α β : Type} {f : β → Option α}
    {R : α → α → Prop} {Q : β → β → Prop}
    (hf : ∀ a b x y, Q a b → f a = some x → f b = some y → R x y) :
    ∀ {l : List β}, l.Pairwise Q → (l.filterMap f).Pairwise R := by
  intro l h
  induction h with
  | nil => simp
  | @cons a l' hhead htail ih =>
    rw [List.filterMap_cons]
    cases hfa : f a with
    | none => exact ih
    | some x =>
      refine List.Pairwise.cons ?_ ih
      intro y hy
      obtain ⟨b, hb, hfb⟩ := List.mem_filterMap.1 hy
      exact hf a b x y (hhead b hb) hfa hfb

theorem filterMap_readLoc_filter_isSome : ∀ l : List FSEntry,
    (l.filter fun e => e.content.isSome).filterMap readLoc = l.filterMap readLoc := by
  intro l
  induction l with
  | nil => rfl
  | cons e l ih =>
    cases he : e.content with
    | none =>
      rw [List.filter_cons, if_neg (by simp [he]), List.filterMap_cons]
      have : readLoc e = none := by simp [readLoc, he]
      rw [this, ih]
    | some c =>
      rw [List.filter_cons, if_pos (by simp [he]), List.filterMap_cons,
        List.filterMap_cons, ih]

theorem mem_results {root : List String} {fs : List FSEntry} {maxSize : Nat}
    {x : List String × Nat} (hx : x ∈ results root fs maxSize) :
    ∃ e, e ∈ fs ∧ rsMatch e = true ∧ excluded root e = false ∧
      ∃ c, e.content = some c ∧ x = (relPath e, lineCount c) ∧
        maxSize ≤ lineCount c := by
  rw [results, mem_sSort, List.mem_filter, List.mem_filterMap] at hx
  obtain ⟨⟨e, he, hread⟩, hT⟩ := hx
  rw [List.mem_filter] at he
  obtain ⟨he2, hnx⟩ := he
  rw [enumerated, mem_sSort, List.mem_filter] at he2
  obtain ⟨hefs, hrs⟩ := he2
  have hexcl : excluded root e = false := by
    cases hc : excluded root e with
    | false => rfl
    | true => rw [hc] at hnx; exact absurd hnx (by simp)
  cases hcont : e.content with
  | none => rw [readLoc, hcont] at hread; exact absurd hread (by simp)
  | some c =>
    rw [readLoc, hcont] at hread
    have hx2 : x = (relPath e, lineCount c) := by
      simpa using hread.symm
    refine ⟨e, hefs, hrs, hexcl, c, hcont, hx2, ?_⟩
    have := of_decide_eq_true hT
    rwa [hx2] at this

theorem slCount_lineStart_nl (cs : List Char) :
    slCount SLMode.lineStart ('\n' :: cs) = 1 + slCount SLMode.lineStart cs := by
  simp only [slCount]
  rw [if_neg (by decide : ¬('\n' : Char) = '\r'), if_pos (by decide : isLineBreak '\n' = true)]

theorem slCount_inLine_nl (cs : List Char) :
    slCount SLMode.inLine ('\n' :: cs) = slCount SLMode.lineStart cs := by
  simp only [slCount]
  rw [if_neg (by decide : ¬('\n' : Char) = '\r'), if_pos (by decide : isLineBreak '\n' = true)]

theorem not_cr_of_not_break {c : Char} (h1 : isLineBreak c = false) : ¬c = '\r' := by
  intro hh
  rw [hh] at h1
  exact absurd h1 (by decide)

theorem slCount_lineStart_other {c : Char} (h1 : isLineBreak c = false) (cs : List Char) :
    slCount SLMode.lineStart (c :: cs) = 1 + slCount SLMode.inLine cs := by
  simp only [slCount]
  rw [if_neg (not_cr_of_not_break h1), if_neg (by simp [h1])]

theorem slCount_inLine_other {c : Char} (h1 : isLineBreak c = false) (cs : List Char) :
    slCount SLMode.inLine (c :: cs) = slCount SLMode.inLine cs := by
  simp only [slCount]
  rw [if_neg (not_cr_of_not_break h1), if_neg (by simp [h1])]

theorem slCount_eq_nlCount : ∀ cs : List Char,
    (∀ c ∈ cs, isLineBreak c = true → c = '\n') →
    slCount SLMode.lineStart cs = nlCount false cs ∧
    slCount SLMode.inLine cs = nlCount true cs := by
  intro cs
  induction cs with
  | nil => intro _; exact ⟨rfl, rfl⟩
  | cons c cs ih =>
    intro h
    have hc := h c (List.mem_cons_self _ _)
    have ih2 := ih fun d hd => h d (List.mem_cons_of_mem _ hd)
    by_cases hn : c = '\n'
    · subst hn
      constructor
      · rw [slCount_lineStart_nl]
        simp only [nlCount, if_pos rfl]
        rw [ih2.1]
        simp
      · rw [slCount_inLine_nl]
        simp only [nlCount, if_pos rfl]
        rw [ih2.1]
        simp
    · have hb : isLineBreak c = false := by
        cases hm : isLineBreak c with
        | false => rfl
        | true => exact absurd (hc hm) hn
      constructor
      · rw [slCount_lineStart_other hb]
        simp only [nlCount, if_neg hn]
        rw [ih2.2]
        simp
      · rw [slCount_inLine_other hb]
        simp only [nlCount, if_neg hn]
        rw [ih2.2]
        simp

/-- C5 counterexample: the claim fails as stated.  The file content
`"a\x0Bb"` (a vertical tab between two letters, unchanged by the
universal-newline translation of `read_text`) is counted as 2 lines by the
code's `len(content.splitlines())`, but simple split-on-newline semantics
gives 1 line, because `splitlines` also breaks on `\x0b` (and on `\x0c`,
`\x1c`, `\x1d`, `\x1e`, `\x85`, ` `, ` `, `\r`). -/
theorem C5_counterexample :
    lineCount "a\x0Bb" = 2 ∧ specLineCount "a\x0Bb" = 1 := by
  constructor <;> rfl

/-- C5 (amended): for every file content none of whose characters is a
line-boundary character other than `'\n'`, the computed line count equals
the split-on-newline count; in particular an empty file yields 0 lines and
an unterminated final line still counts. -/
theorem C5_line_count (s : String)
    (h : ∀ c ∈ s.toList, isLineBreak c = true → c = '\n') :
    lineCount s = specLineCount s :=
  (slCount_eq_nlCount s.toList h).1

/-- Witness for C5: the content `"a\nb"` satisfies the hypothesis and the
two counts agree (both are 2). -/
theorem C5_witness :
    (∀ c ∈ "a\nb".toList, isLineBreak c = true → c = '\n') ∧
      lineCount "a\nb" = specLineCount "a\nb" :=
  ⟨by decide, C5_line_count "a\nb" (by decide)⟩

/-- C1: for every threshold and every produced result list, every entry's
line count is at least the threshold; no file below the threshold is
reported. -/
theorem C1_entries_meet_threshold (root : List String) (fs : List FSEntry)
    (T : Nat) : ∀ x ∈ results root fs T, T ≤ x.2 := by
  intro x hx
  obtain ⟨e, _, _, _, c, _, hx2, hT⟩ := mem_results hx
  rw [hx2]
  exact hT

/-- Witness for C1: a three-line file is reported at threshold 2 and its
count 3 is at least 2. -/
theorem C1_witness :
    (((["a.rs"] : List String), 3) ∈ results [] wFs1 2) ∧ 2 ≤ 3 :=
  ⟨by decide, C1_entries_meet_threshold [] wFs1 2 (["a.rs"], 3) (by decide)⟩

/-- C3: a candidate whose full path has a `target` or `test` component, or
whose base name has `test` immediately before the `.rs` extension, or whose
base name is exactly `bindings.rs`, never appears in the results, whatever
its line count; any single rule suffices. -/
theorem C3_exclusion (root : List String) (fs : List FSEntry) (T : Nat)
    (p : List String) (n : Nat) (h : claimExcluded root p = true) :
    (p, n) ∉ results root fs T := by
  intro hmem
  obtain ⟨e, _, _, hexcl, c, _, hx2, _⟩ := mem_results hmem
  have hp : p = relPath e := congrArg Prod.fst hx2
  rw [hp] at h
  have hlast : (relPath e).getLastD "" = e.fname := List.getLastD_concat _ _ _
  unfold claimExcluded at h
  rw [hlast] at h
  have hexcl' : excluded root e = true := by
    unfold excluded
    simp only [Bool.or_eq_true] at h ⊢
    rcases h with ((h | h) | h) | h
    · exact Or.inl (Or.inl (Or.inl h))
    · exact Or.inl (Or.inl (Or.inr h))
    · exact Or.inl (Or.inr (isSubB_of_isSufB h))
    · exact Or.inr h
  rw [hexcl'] at hexcl
  exact absurd hexcl (by simp)

/-- Witness for C3: `target/big.rs` matches the first exclusion rule and is
absent from the results even at threshold 0. -/
theorem C3_witness :
    claimExcluded [] ["target", "big.rs"] = true ∧
      (((["target", "big.rs"] : List String), 1) ∉ results [] wFs3 0) :=
  ⟨by decide, C3_exclusion [] wFs3 0 ["target", "big.rs"] 1 (by decide)⟩

/-- C9 (implicit): the exclusion rules test the full path including the
anchor root's own components, so a root containing a `target` or `test`
component excludes every candidate and the run always prints the empty-case
report. -/
theorem C9_root_component (root : List String) (fs : List FSEntry) (T : Nat)
    (h : "target" ∈ root ∨ "test" ∈ root) :
    results root fs T = [] ∧
      output root fs T = ["No Rust files with " ++ toString T ++ "+ LOC found."] := by
  have hres : results root fs T = [] := by
    have hfil : (enumerated root fs).filter (fun e => !excluded root e) = [] := by
      rw [List.filter_eq_nil_iff]
      intro e _
      have hex : excluded root e = true := by
        unfold excluded
        rcases h with h | h
        · have hm : "target" ∈ fullParts root e := List.mem_append_left _ h
          simp [hm]
        · have hm : "test" ∈ fullParts root e := List.mem_append_left _ h
          simp [hm]
      simp [hex]
    unfold results
    rw [hfil]
    rfl
  refine ⟨hres, ?_⟩
  unfold output
  rw [hres]
  rfl

/-- Witness for C9: with anchor root `ws/test`, a large readable file under
the root is still never reported and the empty-case line is printed. -/
theorem C9_witness :
    ("target" ∈ (["ws", "test"] : List String) ∨
        "test" ∈ (["ws", "test"] : List String)) ∧
      (results ["ws", "test"] wFs9 0 = [] ∧
        output ["ws", "test"] wFs9 0 =
          ["No Rust files with " ++ toString 0 ++ "+ LOC found."]) :=
  ⟨Or.inr (by decide), C9_root_component ["ws", "test"] wFs9 0 (Or.inr (by decide))⟩

/-- C4: a candidate file whose read fails is silently excluded and affects
nothing else: the results and the printed output over any file set equal
those over the subset of readable files, so a per-file read failure never
aborts the run and every readable file is still counted and reported.  (The
embedding is total, modelling that the bare `except Exception: pass` never
propagates an error.) -/
theorem C4_read_failure (root : List String) (fs : List FSEntry) (T : Nat) :
    results root fs T = results root (fs.filter fun e => e.content.isSome) T ∧
      output root fs T = output root (fs.filter fun e => e.content.isSome) T := by
  have key : results root (fs.filter fun e => e.content.isSome) T
      = results root fs T := by
    unfold results enumerated
    have h1 : (fs.filter fun e => e.content.isSome).filter rsMatch
        = (fs.filter rsMatch).filter fun e => e.content.isSome := by
      rw [List.filter_filter, List.filter_filter]
      exact List.filter_congr fun e _ => Bool.and_comm _ _
    have h2 := (filter_sSort (pathLe_total root) (pathLe_trans root)
      (fun e => e.content.isSome) (fs.filter rsMatch)).symm
    have h3 : ((sSort (pathLe root) (fs.filter rsMatch)).filter
          fun e => e.content.isSome).filter (fun e => !excluded root e)
        = ((sSort (pathLe root) (fs.filter rsMatch)).filter
          fun e => !excluded root e).filter fun e => e.content.isSome := by
      rw [List.filter_filter, List.filter_filter]
      exact List.filter_congr fun e _ => Bool.and_comm _ _
    rw [h1, h2, h3, filterMap_readLoc_filter_isSome]
  refine ⟨key.symm, ?_⟩
  unfold output
  rw [key]

/-- C10: the result is antitone in the threshold: for `T1 ≤ T2` the report
at `T2` is exactly the report at `T1` restricted to entries with at least
`T2` lines, so every `T2`-entry also appears at `T1` with the same count and
the common entries keep their relative order. -/
theorem C10_threshold_antitone (root : List String) (fs : List FSEntry)
    (T1 T2 : Nat) (h : T1 ≤ T2) :
    results root fs T2 =
      (results root fs T1).filter fun x => decide (T2 ≤ x.2) := by
  unfold results
  rw [filter_sSort descLe_total descLe_trans, List.filter_filter]
  refine congrArg (sSort descLe) ?_
  refine List.filter_congr fun x _ => ?_
  by_cases h2 : T2 ≤ x.2
  · have h1 : T1 ≤ x.2 := le_trans h h2
    simp [h1, h2]
  · simp [h2]

/-- Witness for C10: with thresholds 1 ≤ 2 over a 3-line and a 1-line file,
the threshold-2 report is the filtered threshold-1 report. -/
theorem C10_witness :
    1 ≤ 2 ∧ results [] wFs10 2 =
      (results [] wFs10 1).filter fun x => decide (2 ≤ x.2) :=
  ⟨by decide, C10_threshold_antitone [] wFs10 1 2 (by decide)⟩

/-- C2 counterexample: the claim fails as stated.  With anchor `repo` and
one-line files `a/b.rs` and `a.c/d.rs` (equal line counts), the program
reports `a/b.rs` first, because Python sorts `Path` values by their
component sequences; but the full path string `repo/a.c/d.rs` is
lexicographically smaller than `repo/a/b.rs` (`.` sorts before `/`), so the
claimed full-path-string tie order is violated. -/
theorem C2_counterexample :
    results cRootC2 cFsC2 1 =
        [((["a", "b.rs"] : List String), 1), (["a.c", "d.rs"], 1)] ∧
      strLt (fullPathStr cRootC2 ["a.c", "d.rs"])
        (fullPathStr cRootC2 ["a", "b.rs"]) = true := by
  constructor
  · decide
  · decide

/-- C2 (amended): the result list is sorted descending by line count, and
entries with equal line counts appear in lexicographic order of their
component sequences (the order in which Python compares `Path` values):
enumeration sorts candidates by component sequence and the final stable sort
preserves that order among equal counts. -/
theorem C2_sorted_stable (root : List String) (fs : List FSEntry) (T : Nat) :
    (results root fs T).Pairwise fun a b =>
      b.2 ≤ a.2 ∧ (a.2 = b.2 → strLexLe a.1 b.1 = true) := by
  have h0 : (enumerated root fs).Pairwise
      (fun e1 e2 => pathLe root e1 e2 = true) := by
    unfold enumerated
    exact sSort_sortedLe (pathLe_total root) (pathLe_trans root) _
  have h1 : ((enumerated root fs).filter fun e => !excluded root e).Pairwise
      (fun e1 e2 => pathLe root e1 e2 = true) :=
    List.Pairwise.sublist (List.filter_sublist _) h0
  have h2 : (((enumerated root fs).filter fun e =>
      !excluded root e).filterMap readLoc).Pairwise
        (fun x y => strLexLe x.1 y.1 = true) := by
    refine pairwise_filterMap_rel ?_ h1
    intro a b x y hab hfa hfb
    have hxa : x.1 = relPath a := by
      cases hca : a.content with
      | none => rw [readLoc, hca] at hfa; exact absurd hfa (by simp)
      | some c =>
        rw [readLoc, hca] at hfa
        simp only [Option.map_some', Option.some.injEq] at hfa
        rw [← hfa]
    have hyb : y.1 = relPath b := by
      cases hcb : b.content with
      | none => rw [readLoc, hcb] at hfb; exact absurd hfb (by simp)
      | some c =>
        rw [readLoc, hcb] at hfb
        simp only [Option.map_some', Option.some.injEq] at hfb
        rw [← hfb]
    rw [hxa, hyb]
    have h' : strLexLe (root ++ relPath a) (root ++ relPath b) = true := hab
    rwa [strLexLe_append] at h'
  have h3 : ((((enumerated root fs).filter fun e =>
      !excluded root e).filterMap readLoc).filter
        fun x => decide (T ≤ x.2)).Pairwise
          (fun x y => strLexLe x.1 y.1 = true) :=
    List.Pairwise.sublist (List.filter_sublist _) h2
  have h4 := sSort_pairwise descLe_total descLe_trans h3
  unfold results
  refine h4.imp ?_
  intro a b hab
  obtain ⟨hle, htie⟩ := hab
  refine ⟨of_decide_eq_true hle, fun heq => htie ?_⟩
  simp [descLe, heq]

/-- C6: when no qualifying file is found the program prints exactly the one
line `No Rust files with {threshold}+ LOC found.` with the threshold
substituted, and nothing else. -/
theorem C6_empty_report (root : List String) (fs : List FSEntry) (T : Nat)
    (h : results root fs T = []) :
    output root fs T = ["No Rust files with " ++ toString T ++ "+ LOC found."] := by
  unfold output
  rw [h]
  rfl

/-- Witness for C6: an empty tree at the default threshold yields exactly
the single empty-case line. -/
theorem C6_witness :
    results [] ([] : List FSEntry) 500 = [] ∧
      output [] ([] : List FSEntry) 500 =
        ["No Rust files with " ++ toString 500 ++ "+ LOC found."] :=
  ⟨rfl, C6_empty_report [] [] 500 rfl⟩

theorem padLeft_append_padLeft (m n : Nat) :
    padLeft m ++ padLeft n = padLeft (m + n) := by
  show String.mk (List.replicate m ' ') ++ String.mk (List.replicate n ' ')
      = String.mk (List.replicate (m + n) ' ')
  rw [List.replicate_add]
  rfl

theorem two_spaces_rjust (s : String) :
    "  " ++ rjust 5 s =
      rjust (if s.length ≤ 5 then 7 else s.length + 2) s := by
  have hmk : ("  " : String) = padLeft 2 := by decide
  unfold rjust
  rw [hmk, ← String.append_assoc, padLeft_append_padLeft]
  have harith : 2 + (5 - s.length) =
      (if s.length ≤ 5 then 7 else s.length + 2) - s.length := by
    by_cases hl : s.length ≤ 5
    · rw [if_pos hl]; omega
    · rw [if_neg hl]; omega
  rw [harith]

/-- C7: with a non-empty result list of `N` entries, the output is the
header `Rust files with {threshold}+ LOC ({N} files):`, a blank line, and
then one line per entry, in result order, each consisting of the line count
right-justified in a field of at least 5 characters, the literal
`" lines  "`, and the path relative to the anchor root. -/
theorem C7_nonempty_report (root : List String) (fs : List FSEntry) (T : Nat)
    (h : results root fs T ≠ []) :
    output root fs T =
        ("Rust files with " ++ toString T ++ "+ LOC (" ++
            toString (results root fs T).length ++ " files):") ::
          "" :: (results root fs T).map entryLine ∧
      ∀ x ∈ results root fs T, ∃ w, 5 ≤ w ∧
        entryLine x =
          rjust w (toString x.2) ++ " lines  " ++ String.intercalate "/" x.1 := by
  constructor
  · unfold output
    rw [if_neg fun hh => h (List.isEmpty_iff.1 hh)]
  · intro x _
    refine ⟨if (toString x.2).length ≤ 5 then 7 else (toString x.2).length + 2,
      ?_, ?_⟩
    · by_cases hl : (toString x.2).length ≤ 5
      · rw [if_pos hl]; omega
      · rw [if_neg hl]; omega
    · unfold entryLine
      rw [← two_spaces_rjust]

/-- Witness for C7: a single two-line file at threshold 1 produces the
header, the blank line, and one formatted entry line. -/
theorem C7_witness :
    results [] wFs7 1 ≠ [] ∧
      (output [] wFs7 1 =
          ("Rust files with " ++ toString 1 ++ "+ LOC (" ++
              toString (results [] wFs7 1).length ++ " files):") ::
            "" :: (results [] wFs7 1).map entryLine ∧
        ∀ x ∈ results [] wFs7 1, ∃ w, 5 ≤ w ∧
          entryLine x =
            rjust w (toString x.2) ++ " lines  " ++ String.intercalate "/" x.1) :=
  ⟨by decide, C7_nonempty_report [] wFs7 1 (by decide)⟩

set_option maxRecDepth 8192 in
/-- C8: invoked without an explicit threshold argument the program runs with
threshold 500: the `__main__` call passes no argument and the parameter
default is 500; concretely, under the default a 500-line file is reported
and a 499-line file is not. -/
theorem C8_default_threshold (root : List String) (fs : List FSEntry) :
    mainNoArgs root fs = output root fs 500 ∧
      mainNoArgs [] demoFs =
        ["Rust files with 500+ LOC (1 files):", "", "    500 lines  big.rs"] := by
  constructor
  · rfl
  · decide
